import Mathlib

/-!
Shallow embedding of the growable-array library in `src/src/lib.rs`
(a from-scratch `Vec<T>`: doubling backing buffer, push/pop/insert/remove,
slice view via Deref/DerefMut, and a double-ended owning iterator).

Modelling decisions, stated once:
* The backing buffer together with the `len` field is modelled as
  `data : List α`, the initialized prefix `[0, len)` of the allocation;
  `len` is `data.length`.  Slots in `[len, cap)` are uninitialized in the
  source and never read by any operation, so they are not represented.
* Machine integers (`usize`) become `Nat`.  The source's one overflow
  guard — `assert!(old_num_bytes <= isize::MAX/2)` in `grow` — is kept
  explicitly, with `isize::MAX` of a 64-bit target as `isizeMAX`.
  `size_of::<T>()` is an explicit parameter `es` (element size in bytes).
* Fatal `assert!` failures become `Except.error` values of `VecErr`
  (`capacityOverflow` for the grow guard, `outOfBounds` for the
  insert/remove index asserts).  Allocation itself is assumed to succeed,
  as in the source (the returned pointer is never checked).
* Raw pointers of `RawValIter` become indices into the owned buffer
  (start = base pointer ↦ 0, end = base + len ↦ len); the source's
  `len == 0` special case in `RawValIter::new` avoids pointer offsetting
  but produces the same pair start = end = 0, so the index model is one
  formula.
* Destructor behaviour is made observable: `Vec::drop` is modelled as the
  list of values whose destructors run (in pop order, as the source's
  `while let Some(_) = self.pop()` loop produces them) together with a
  flag recording whether the allocation was released.  The source has no
  `impl Drop for IntoIter`, so dropping an `IntoIter` drops its `vec`
  field via `Vec::drop` — that is modelled verbatim.
-/

/-- Errors of the fatal assertions in the source. -/
inductive VecErr where
  | capacityOverflow
  | outOfBounds
deriving DecidableEq

instance {ε σ : Type} [DecidableEq ε] [DecidableEq σ] : DecidableEq (Except ε σ) :=
  fun a b =>
  match a, b with
  | .error x, .error y =>
    if h : x = y then .isTrue (by rw [h])
    else .isFalse (by intro hc; injection hc with h2; exact h h2)
  | .error _, .ok _ => .isFalse (by intro hc; exact Except.noConfusion hc)
  | .ok _, .error _ => .isFalse (by intro hc; exact Except.noConfusion hc)
  | .ok x, .ok y =>
    if h : x = y then .isTrue (by rw [h])
    else .isFalse (by intro hc; injection hc with h2; exact h h2)

/-- The value `isize::MAX` on the 64-bit target the source is compiled for. -/
def isizeMAX : Nat := 2 ^ 63 - 1

/-- The value `usize::MAX` on the same target. -/
def usizeMAX : Nat := 2 ^ 64 - 1

/-- Source `Vec<T>` of `src/src/lib.rs` (lines 32–36): `data` is the initialized
prefix `[0, len)` of the allocation (so `len = data.length`), `cap` the
capacity field.  The pointer itself carries no observable data beyond
this. -/
structure RVec (α : Type) where
  data : List α
  cap : Nat
deriving DecidableEq

namespace RVec

/-- Source `Vec::new` (lines 39–46): empty, capacity 0, no allocation.  The
source also statically asserts `size_of::<T>() != 0`; that precondition
appears as `1 ≤ es` hypotheses where the element size matters. -/
def new {α : Type} : RVec α := ⟨[], 0⟩

/-- Source `Vec::grow` (lines 47–81): capacity 0 allocates room for exactly one
element and sets `cap = 1`; otherwise the source asserts
`old_num_bytes = cap * size_of::<T>() ≤ isize::MAX / 2` ("capacity
overflow") and reallocates to double capacity.  Reallocation preserves
the initialized prefix, so `data` is unchanged. -/
def grow {α : Type} (es : Nat) (v : RVec α) : Except VecErr (RVec α) :=
  if v.cap = 0 then
    .ok { v with cap := 1 }
  else
    if v.cap * es ≤ isizeMAX / 2 then
      .ok { v with cap := v.cap * 2 }
    else
      .error .capacityOverflow

/-- Source `Vec::push` (lines 83–94): grow when `len == cap`, then write the
element into slot `len` (extending the initialized prefix) and increment
`len`. -/
def push {α : Type} (es : Nat) (v : RVec α) (elem : α) : Except VecErr (RVec α) :=
  match (if v.data.length = v.cap then grow es v else .ok v) with
  | .error e => .error e
  | .ok w => .ok { w with data := w.data ++ [elem] }

/-- Source `Vec::pop` (lines 96–103): `None` when `len == 0`; otherwise
decrement `len` and move the value out of slot `len` (the last element
of the initialized prefix). -/
def pop {α : Type} (v : RVec α) : RVec α × Option α :=
  if v.data.length = 0 then
    (v, none)
  else
    ({ v with data := v.data.dropLast }, v.data.getLast?)

/-- Source `Vec::insert` (lines 105–125): assert `index ≤ len` ("index out of
bounds"), grow when full, shift `[index, len)` one slot up
(`ptr::copy`), write the element at `index`, increment `len`.  On the
list model the shift-and-write is `take index ++ elem :: drop index`. -/
def insert {α : Type} (es : Nat) (v : RVec α) (index : Nat) (elem : α) :
    Except VecErr (RVec α) :=
  if index ≤ v.data.length then
    match (if v.cap = v.data.length then grow es v else .ok v) with
    | .error e => .error e
    | .ok w => .ok { w with data := w.data.take index ++ elem :: w.data.drop index }
  else
    .error .outOfBounds

/-- Source `Vec::remove` (lines 127–140): assert `index < len` ("index out of
bounds"), move the value at `index` out, shift `(index, old len)` one
slot down (`ptr::copy`), decrement `len`.  The surviving prefix is
`take index ++ drop (index + 1)`. -/
def remove {α : Type} (v : RVec α) (index : Nat) : Except VecErr (α × RVec α) :=
  if h : index < v.data.length then
    .ok (v.data[index], { v with data := v.data.take index ++ v.data.drop (index + 1) })
  else
    .error .outOfBounds

/-- Source `impl Deref for Vec` (lines 168–173):
`slice::from_raw_parts(ptr, len)` — the initialized prefix as a slice. -/
def deref {α : Type} (v : RVec α) : List α := v.data

/-- A single write through `impl DerefMut for Vec` (lines 175–179):
`slice::from_raw_parts_mut(ptr, len)` followed by storing `x` at slice
position `j`. -/
def derefMutSet {α : Type} (v : RVec α) (j : Nat) (x : α) : RVec α :=
  { v with data := v.data.set j x }

/-- Source `impl Drop for Vec` (lines 150–166): when `cap ≠ 0`, pop every
element (running each popped value's destructor) and then deallocate
once; when `cap == 0` do nothing at all.  The result records the
sequence of destructed values (pop order: back to front) and whether the
allocation was released. -/
def dropVec {α : Type} (v : RVec α) : List α × Bool :=
  if v.cap = 0 then
    ([], false)
  else
    (v.data.reverse, true)

end RVec

/-- Source `RawValIter<T>` (lines 7–10), with the two raw cursors modelled as
indices into the owned buffer: the source's `start` pointer is index 0
of the slice, its `end` pointer is index `len`.  (`end` is a Lean
keyword, hence the field name `endI`.) -/
structure RawValIter where
  start : Nat
  endI : Nat
deriving DecidableEq

/-- Source `RawValIter::new` (lines 17–29): `start = slice.as_ptr()`,
`end = start + len`, where the source's `len == 0` branch only avoids
offsetting a dangling pointer and yields the same pair `start = end`. -/
def RawValIter.new {α : Type} (slice : List α) : RawValIter :=
  ⟨0, slice.length⟩

/-- Source `IntoIter<T>` (lines 181–184): the moved-in vector (kept to own the
allocation) plus the raw cursor range. -/
structure IntoIter (α : Type) where
  vec : RVec α
  raw : RawValIter
deriving DecidableEq

/-- Source `Vec::into_iter` (lines 142–148): build the cursor range over the
current `[0, len)` slice, package it with the vector. -/
def RVec.intoIter {α : Type} (v : RVec α) : IntoIter α :=
  { vec := v, raw := RawValIter.new v.data }

namespace IntoIter

/-- Source `Iterator::next` for `IntoIter` (lines 186–198): yield no-value when
`start == end`; otherwise decrement `end` and move out the value there
(the high end of the remaining range).  `ptr::read` does not modify the
buffer, so `vec` keeps its data. -/
def next {α : Type} (it : IntoIter α) : Option α × IntoIter α :=
  if it.raw.start = it.raw.endI then
    (none, it)
  else
    (it.vec.data[it.raw.endI - 1]?,
     { it with raw := { it.raw with endI := it.raw.endI - 1 } })

/-- Source `DoubleEndedIterator::next_back` for `IntoIter` (lines 200–211):
yield no-value when `start == end`; otherwise move out the value at
`start` (the low end) and increment `start`. -/
def next_back {α : Type} (it : IntoIter α) : Option α × IntoIter α :=
  if it.raw.start = it.raw.endI then
    (none, it)
  else
    (it.vec.data[it.raw.start]?,
     { it with raw := { it.raw with start := it.raw.start + 1 } })

/-- Destruction of an `IntoIter`.  The source declares NO
`impl Drop for IntoIter`; dropping one therefore drops its fields, and
the `vec` field runs `impl Drop for Vec` — whose pop loop is driven by
the vector's (stale, never-updated) `len` field, not by the cursor
range. -/
def dropIter {α : Type} (it : IntoIter α) : List α × Bool :=
  RVec.dropVec it.vec

/-- The elements still within `[start, end)` of the remaining range —
what the spec says an iterator's destructor must destruct. -/
def remaining {α : Type} (it : IntoIter α) : List α :=
  (it.vec.data.drop it.raw.start).take (it.raw.endI - it.raw.start)

end IntoIter

/-- Run a sequence of iterator calls (`true` = `next`,
`false` = `next_back`), collecting every returned value. -/
def runIter {α : Type} : List Bool → IntoIter α → List (Option α) × IntoIter α
  | [], it => ([], it)
  | b :: bs, it =>
    let p := if b then it.next else it.next_back
    let q := runIter bs p.2
    (p.1 :: q.1, q.2)

/-- Push a whole list in order (`pushAll v [x1, …, xn]` performs
`push x1; …; push xn`). -/
def RVec.pushAll {α : Type} (es : Nat) (v : RVec α) : List α → Except VecErr (RVec α)
  | [] => .ok v
  | x :: xs =>
    match RVec.push es v x with
    | .error e => .error e
    | .ok w => RVec.pushAll es w xs

/-- Pop `n` times, collecting results in call order. -/
def RVec.popN {α : Type} : Nat → RVec α → RVec α × List (Option α)
  | 0, v => (v, [])
  | n + 1, v =>
    let p := RVec.pop v
    let q := RVec.popN n p.1
    (q.1, p.2 :: q.2)

/-- One public mutating operation of the array, for whole-run
statements. -/
inductive Op (α : Type) where
  | push (x : α)
  | pop
  | insert (i : Nat) (x : α)
  | remove (i : Nat)
deriving DecidableEq

/-- Apply one operation, keeping only the resulting state (returned
values are irrelevant to the capacity invariants). -/
def applyOp {α : Type} (es : Nat) : Op α → RVec α → Except VecErr (RVec α)
  | .push x, v => RVec.push es v x
  | .pop, v => .ok (RVec.pop v).1
  | .insert i x, v => RVec.insert es v i x
  | .remove i, v =>
    match RVec.remove v i with
    | .error e => .error e
    | .ok p => .ok p.2

/-- Run a list of operations, also counting growth events: `grow` is
invoked at most once per operation and strictly changes `cap`
(0 ↦ 1, c ↦ 2c with c > 0), and no operation changes `cap` otherwise,
so a step grew exactly when its capacity changed. -/
def runCount {α : Type} (es : Nat) :
    List (Op α) → RVec α → Except VecErr (RVec α × Nat)
  | [], v => .ok (v, 0)
  | op :: ops, v =>
    match applyOp es op v with
    | .error e => .error e
    | .ok v' =>
      match runCount es ops v' with
      | .error e => .error e
      | .ok (vf, k) => .ok (vf, (if v'.cap = v.cap then 0 else 1) + k)

/-! ## Basic facts about the operations -/

/-- The shift-and-write of `insert` is `List.insertIdx`. -/
theorem take_cons_drop {α : Type} :
    ∀ (i : Nat) (x : α) (l : List α), i ≤ l.length →
      l.take i ++ x :: l.drop i = l.insertIdx i x
  | 0, _, _, _ => rfl
  | i + 1, x, [], h => by simp at h
  | i + 1, x, a :: l, h => by
    simp only [List.take_succ_cons, List.drop_succ_cons, List.insertIdx_succ_cons,
      List.cons_append, List.cons.injEq, true_and]
    exact take_cons_drop i x l (by simpa using h)

/-- A successful `grow` keeps the data and moves the capacity 0 ↦ 1 or
c ↦ 2c. -/
theorem grow_ok {α : Type} {es : Nat} {v w : RVec α} (h : RVec.grow es v = .ok w) :
    w.data = v.data ∧ v.cap ≤ w.cap ∧
      ((v.cap = 0 ∧ w.cap = 1) ∨ (v.cap ≠ 0 ∧ w.cap = v.cap * 2)) := by
  unfold RVec.grow at h
  split at h
  case isTrue h0 =>
    cases h
    exact ⟨rfl, by omega, Or.inl ⟨h0, rfl⟩⟩
  case isFalse h0 =>
    split at h
    case isTrue hb =>
      cases h
      exact ⟨rfl, by show v.cap ≤ v.cap * 2; omega, Or.inr ⟨h0, rfl⟩⟩
    case isFalse hb => exact Except.noConfusion h

/-- A successful `push` appends the element; the capacity only moves
when the array was full, and then only by the growth rule. -/
theorem push_ok {α : Type} {es : Nat} {v v' : RVec α} {x : α}
    (h : RVec.push es v x = .ok v') :
    v'.data = v.data ++ [x] ∧ v.cap ≤ v'.cap ∧
      (v.data.length ≠ v.cap → v' = { v with data := v.data ++ [x] }) := by
  unfold RVec.push at h
  split at h
  next e heq => exact Except.noConfusion h
  next w heq =>
    cases h
    split at heq
    case isTrue hfull =>
      obtain ⟨hd, hc, -⟩ := grow_ok heq
      exact ⟨by rw [hd], hc, fun hne => absurd hfull hne⟩
    case isFalse hfull =>
      cases heq
      exact ⟨rfl, le_refl _, fun _ => rfl⟩

/-- A successful `insert` demands `index ≤ len` and splices the element
in at `index`. -/
theorem insert_ok {α : Type} {es : Nat} {v v' : RVec α} {i : Nat} {x : α}
    (h : RVec.insert es v i x = .ok v') :
    i ≤ v.data.length ∧ v'.data = v.data.insertIdx i x ∧ v.cap ≤ v'.cap := by
  unfold RVec.insert at h
  split at h
  case isTrue hle =>
    split at h
    next e heq => exact Except.noConfusion h
    next w heq =>
      cases h
      have hw : w.data = v.data ∧ v.cap ≤ w.cap := by
        split at heq
        case isTrue hfull =>
          have := grow_ok heq
          exact ⟨this.1, this.2.1⟩
        case isFalse hfull =>
          cases heq
          exact ⟨rfl, le_refl _⟩
      refine ⟨hle, ?_, hw.2⟩
      show w.data.take i ++ x :: w.data.drop i = v.data.insertIdx i x
      rw [hw.1]
      exact take_cons_drop i x v.data hle
  case isFalse hle => exact Except.noConfusion h

/-! ## Claim theorems -/

/-- Claim C1 is refuted by the code: the source declares no
`impl Drop for IntoIter`, so dropping the iterator runs
`impl Drop for Vec` on the owned `vec` field, whose pop loop is driven
by the stale `length` field.  After `push(1); push(2); push(3)`,
`into_iter`, and one `next()` call (which yields 3, leaving remaining
range `[1, 2]`), destruction destructs all three stored values — the
already-yielded 3 included — and the destructed collection is not even a
permutation of the remaining range. -/
theorem intoIter_drop_double_destructs :
    ((((⟨[1, 2, 3], 4⟩ : RVec Nat).intoIter.next).2).remaining = [1, 2] ∧
      IntoIter.dropIter (((⟨[1, 2, 3], 4⟩ : RVec Nat).intoIter.next).2) =
        ([3, 2, 1], true)) ∧
    ¬ (IntoIter.dropIter (((⟨[1, 2, 3], 4⟩ : RVec Nat).intoIter.next).2)).1.Perm
        ((((⟨[1, 2, 3], 4⟩ : RVec Nat).intoIter.next).2).remaining) := by
  refine ⟨⟨by decide, by decide⟩, ?_⟩
  decide

/-- Claim C9: `grow` on capacity 0 allocates room for exactly one
element (capacity becomes 1); on non-zero capacity it fails with the
capacity-overflow assertion exactly when the old byte size
`cap * size_of(T)` exceeds `isize::MAX / 2`, and otherwise doubles the
capacity; under that precondition the doubled capacity and doubled byte
size also stay within `usize`, so the arithmetic cannot overflow. -/
theorem grow_spec {α : Type} (v : RVec α) (es : Nat) (hes : 1 ≤ es) :
    (v.cap = 0 → RVec.grow es v = .ok { v with cap := 1 }) ∧
    (v.cap ≠ 0 →
      (RVec.grow es v = .error .capacityOverflow ↔ ¬ v.cap * es ≤ isizeMAX / 2)) ∧
    (v.cap ≠ 0 → v.cap * es ≤ isizeMAX / 2 →
      RVec.grow es v = .ok { v with cap := v.cap * 2 } ∧
      v.cap * 2 ≤ usizeMAX ∧ v.cap * 2 * es ≤ usizeMAX) := by
  have hdiv : isizeMAX / 2 = 4611686018427387903 := by norm_num [isizeMAX]
  refine ⟨?_, ?_, ?_⟩
  · intro h0
    unfold RVec.grow
    rw [if_pos h0]
  · intro h0
    unfold RVec.grow
    rw [if_neg h0]
    constructor
    · intro h
      by_contra hb
      rw [if_pos hb] at h
      exact Except.noConfusion h
    · intro hb
      rw [if_neg hb]
  · intro h0 hb
    unfold RVec.grow
    rw [if_neg h0, if_pos hb]
    have h1 : v.cap ≤ v.cap * es := by
      calc v.cap = v.cap * 1 := by ring
        _ ≤ v.cap * es := Nat.mul_le_mul_left _ hes
    have h2 : v.cap ≤ 4611686018427387903 := by
      rw [← hdiv]
      exact le_trans h1 hb
    have hu : usizeMAX = 18446744073709551615 := by norm_num [usizeMAX]
    refine ⟨rfl, by omega, ?_⟩
    calc v.cap * 2 * es = v.cap * es * 2 := by ring
      _ ≤ isizeMAX / 2 * 2 := Nat.mul_le_mul_right 2 hb
      _ ≤ usizeMAX := by rw [hdiv, hu]; norm_num

/-- Witness for `grow_spec` at a concrete input. -/
theorem grow_spec_witness :
    RVec.grow 4 (⟨[], 0⟩ : RVec Nat) = .ok ⟨[], 1⟩ :=
  (grow_spec ⟨[], 0⟩ 4 (by decide)).1 rfl

/-- Claim C7: on any state, a successful `insert(i, x)` immediately
followed by `remove(i)` returns `x` and restores the stored value
sequence to its pre-insert state (only the capacity may have grown). -/
theorem insert_remove_roundtrip {α : Type} (es : Nat) (v v' : RVec α) (i : Nat) (x : α)
    (h : RVec.insert es v i x = .ok v') :
    RVec.remove v' i = .ok (x, ⟨v.data, v'.cap⟩) := by
  obtain ⟨d, c⟩ := v'
  obtain ⟨hi, hdata, -⟩ := insert_ok h
  simp only at hdata
  subst hdata
  have hlen : (v.data.insertIdx i x).length = v.data.length + 1 :=
    List.length_insertIdx _ _ hi
  unfold RVec.remove
  rw [dif_pos (by simpa [hlen] using Nat.lt_succ_of_le hi)]
  simp [List.getElem_insertIdx_self _ _ _ hi, ← List.eraseIdx_eq_take_drop_succ,
    List.eraseIdx_insertIdx]

/-- Witness for `insert_remove_roundtrip` at a concrete input. -/
theorem insert_remove_roundtrip_witness :
    RVec.remove (⟨[1, 9, 2], 4⟩ : RVec Nat) 1 = .ok (9, ⟨[1, 2], 4⟩) :=
  insert_remove_roundtrip 4 ⟨[1, 2], 2⟩ ⟨[1, 9, 2], 4⟩ 1 9 (by decide)

/-- Claim C10: on any state (not only from-empty push sequences), a
successful `push(x)` immediately followed by `pop()` returns `x` and
restores the stored value sequence (hence the length); the capacity
never shrinks and is unchanged whenever the array was not full. -/
theorem push_pop_id {α : Type} (es : Nat) (v v' : RVec α) (x : α)
    (h : RVec.push es v x = .ok v') :
    RVec.pop v' = (⟨v.data, v'.cap⟩, some x) ∧ v.cap ≤ v'.cap ∧
      (v.data.length ≠ v.cap → v'.cap = v.cap) := by
  obtain ⟨hdata, hcap, hsame⟩ := push_ok h
  refine ⟨?_, hcap, fun hne => by rw [hsame hne]⟩
  obtain ⟨d, c⟩ := v'
  simp only at hdata
  subst hdata
  unfold RVec.pop
  rw [if_neg (by simp)]
  simp

/-- Witness for `push_pop_id` at a concrete input. -/
theorem push_pop_id_witness :
    RVec.pop (⟨[7, 5], 2⟩ : RVec Nat) = (⟨[7], 2⟩, some 5) :=
  (push_pop_id 4 ⟨[7], 2⟩ ⟨[7, 5], 2⟩ 5 (by decide)).1

/-- A successful run of pushes appends the pushed list in order. -/
theorem pushAll_ok {α : Type} {es : Nat} {v v' : RVec α} {l : List α}
    (h : RVec.pushAll es v l = .ok v') : v'.data = v.data ++ l := by
  induction l generalizing v with
  | nil =>
    cases h
    simp
  | cons x xs ih =>
    unfold RVec.pushAll at h
    split at h
    next e heq => exact Except.noConfusion h
    next w heq =>
      rw [ih h, (push_ok heq).1]
      simp

/-- Unfolding equation for `popN` on a successor count. -/
theorem popN_succ {α : Type} (n : Nat) (v : RVec α) :
    RVec.popN (n + 1) v =
      ((RVec.popN n (RVec.pop v).1).1, (RVec.pop v).2 :: (RVec.popN n (RVec.pop v).1).2) :=
  rfl

/-- Popping `length + 1` times drains the initialized prefix back to front and
then report no-value. -/
theorem popN_eq {α : Type} (c : Nat) (d : List α) :
    RVec.popN (d.length + 1) ⟨d, c⟩ = (⟨[], c⟩, d.reverse.map some ++ [none]) := by
  induction d using List.reverseRecOn with
  | nil => simp [RVec.popN, RVec.pop]
  | append_singleton l a ih =>
    have hpop : RVec.pop ⟨l ++ [a], c⟩ = (⟨l, c⟩, some a) := by
      unfold RVec.pop
      rw [if_neg (by simp)]
      simp
    simp only [List.length_append, List.length_singleton]
    rw [popN_succ, hpop]
    simp only []
    rw [ih]
    simp

/-- Claim C2: pushing v1 … vn from a new empty array and then popping
n + 1 times returns vn, …, v1 and finally no-value; every pop on an
empty array (the freshly constructed one included) returns no-value. -/
theorem push_pop_lifo {α : Type} (es : Nat) (vs : List α) (v : RVec α)
    (h : RVec.pushAll es RVec.new vs = .ok v) :
    (RVec.popN (vs.length + 1) v).2 = vs.reverse.map some ++ [none] ∧
    (RVec.pop (RVec.new : RVec α)).2 = none ∧
    ∀ w : RVec α, w.data = [] → (RVec.pop w).2 = none := by
  have hdata : v.data = vs := by simpa using pushAll_ok h
  obtain ⟨d, c⟩ := v
  simp only at hdata
  subst hdata
  refine ⟨?_, rfl, ?_⟩
  · rw [popN_eq]
  · intro w hw
    unfold RVec.pop
    rw [if_pos (by simp [hw])]

/-- Witness for `push_pop_lifo` at a concrete input. -/
theorem push_pop_lifo_witness :
    (RVec.popN 4 (⟨[1, 2, 3], 4⟩ : RVec Nat)).2 = [some 3, some 2, some 1, none] :=
  (push_pop_lifo 4 [1, 2, 3] ⟨[1, 2, 3], 4⟩ (by decide)).1

/-- Claim C8: for any reachable-by-pushes array the slice view equals
the pushed values in push order and its length is the array's length;
a write through the mutable view at position `j` is seen by a subsequent
read of position `j`. -/
theorem deref_view_spec {α : Type} (es : Nat) (vs : List α) (v : RVec α)
    (h : RVec.pushAll es RVec.new vs = .ok v) :
    RVec.deref v = vs ∧ (RVec.deref v).length = v.data.length ∧
    ∀ (j : Nat) (x : α), j < (RVec.deref v).length →
      (RVec.deref (RVec.derefMutSet v j x))[j]? = some x := by
  have hdata : v.data = vs := by simpa using pushAll_ok h
  refine ⟨hdata, rfl, ?_⟩
  intro j x hj
  show (v.data.set j x)[j]? = some x
  exact List.getElem?_set_self (by simpa using hj)

/-- Witness for `deref_view_spec` at a concrete input. -/
theorem deref_view_spec_witness :
    RVec.deref (⟨[1, 2, 3], 4⟩ : RVec Nat) = [1, 2, 3] ∧
    (RVec.deref (RVec.derefMutSet (⟨[1, 2, 3], 4⟩ : RVec Nat) 0 4))[0]? = some 4 :=
  ⟨(deref_view_spec 4 [1, 2, 3] ⟨[1, 2, 3], 4⟩ (by decide)).1,
   (deref_view_spec 4 [1, 2, 3] ⟨[1, 2, 3], 4⟩ (by decide)).2.2 0 4 (by decide)⟩

/-- Claim C6: `insert` fails with the out-of-bounds assertion exactly
when `index > length` (insertion at `index = length` is permitted and
equals `push`), and `remove` fails exactly when `index ≥ length`;
`remove` at a valid index always completes, and its only fatal mode is
out-of-bounds. -/
theorem insert_remove_bounds {α : Type} (es : Nat) (v : RVec α) (i : Nat) (x : α) :
    (RVec.insert es v i x = .error .outOfBounds ↔ v.data.length < i) ∧
    (RVec.remove v i = .error .outOfBounds ↔ v.data.length ≤ i) ∧
    (RVec.remove v i = .error .outOfBounds ∨ ∃ r w, RVec.remove v i = .ok (r, w)) ∧
    RVec.insert es v v.data.length x = RVec.push es v x := by
  refine ⟨?_, ?_, ?_, ?_⟩
  · unfold RVec.insert
    by_cases hle : i ≤ v.data.length
    · rw [if_pos hle]
      have hnlt : ¬ v.data.length < i := by omega
      cases hg : (if v.cap = v.data.length then RVec.grow es v else .ok v) with
      | error e =>
        have he : e = .capacityOverflow := by
          by_cases hfull : v.cap = v.data.length
          · rw [if_pos hfull] at hg
            unfold RVec.grow at hg
            split at hg
            · exact Except.noConfusion hg
            · split at hg
              · exact Except.noConfusion hg
              · injection hg with h2
                exact h2.symm
          · rw [if_neg hfull] at hg
            exact Except.noConfusion hg
        simp [he, hnlt]
      | ok w => simp [hnlt]
    · rw [if_neg hle]
      simp
      omega
  · unfold RVec.remove
    by_cases hlt : i < v.data.length
    · rw [dif_pos hlt]
      simp
      omega
    · rw [dif_neg hlt]
      simp
      omega
  · unfold RVec.remove
    by_cases hlt : i < v.data.length
    · rw [dif_pos hlt]
      exact Or.inr ⟨_, _, rfl⟩
    · rw [dif_neg hlt]
      exact Or.inl rfl
  · unfold RVec.insert RVec.push
    rw [if_pos (le_refl _)]
    by_cases hfull : v.data.length = v.cap
    · rw [if_pos hfull.symm, if_pos hfull]
      cases hg : RVec.grow es v with
      | error e => rfl
      | ok w =>
        have hw := (grow_ok hg).1
        show Except.ok { w with data := w.data.take v.data.length ++ x :: w.data.drop v.data.length }
          = Except.ok { w with data := w.data ++ [x] }
        rw [hw]
        simp [List.take_length, List.drop_length]
    · rw [if_neg (fun hc => hfull hc.symm), if_neg hfull]
      show Except.ok { v with data := v.data.take v.data.length ++ x :: v.data.drop v.data.length }
        = Except.ok { v with data := v.data ++ [x] }
      simp [List.take_length, List.drop_length]

/-- Witness for `insert_remove_bounds` at a concrete input. -/
theorem insert_remove_bounds_witness :
    (RVec.insert 4 (⟨[5], 1⟩ : RVec Nat) 3 7 = .error .outOfBounds ↔ 1 < 3) ∧
    RVec.insert 4 (⟨[5], 1⟩ : RVec Nat) 1 7 = RVec.push 4 (⟨[5], 1⟩ : RVec Nat) 7 :=
  ⟨(insert_remove_bounds 4 ⟨[5], 1⟩ 3 7).1,
   (insert_remove_bounds 4 ⟨[5], 1⟩ 1 7).2.2.2⟩

/-! ## The owning iterator -/

/-- Unfolding equation for `runIter` on a non-empty call list. -/
theorem runIter_cons {α : Type} (b : Bool) (bs : List Bool) (it : IntoIter α) :
    runIter (b :: bs) it =
      ((if b then it.next else it.next_back).1 ::
          (runIter bs (if b then it.next else it.next_back).2).1,
        (runIter bs (if b then it.next else it.next_back).2).2) :=
  rfl

/-- An exhausted iterator answers no-value to every further call of
either method, forever. -/
theorem runIter_exhausted {α : Type} (cs : List Bool) (it : IntoIter α)
    (hex : it.raw.start = it.raw.endI) :
    (runIter cs it).1 = List.replicate cs.length none := by
  induction cs generalizing it with
  | nil => rfl
  | cons c cs ih =>
    have hcall : (if c then it.next else it.next_back) = (none, it) := by
      cases c <;> simp [IntoIter.next, IntoIter.next_back, hex]
    rw [runIter_cons, hcall]
    simp [ih it hex, List.replicate_succ]

/-- Peeling one `next` off the remaining range removes its high end. -/
theorem remaining_next {α : Type} (it : IntoIter α)
    (hlt : it.raw.start < it.raw.endI) (hel : it.raw.endI ≤ it.vec.data.length) :
    it.remaining =
      ({ it with raw := { it.raw with endI := it.raw.endI - 1 } } : IntoIter α).remaining
        ++ [it.vec.data[it.raw.endI - 1]] := by
  unfold IntoIter.remaining
  simp only []
  have h1 : it.raw.endI - it.raw.start = (it.raw.endI - 1 - it.raw.start) + 1 := by omega
  rw [h1, List.take_succ]
  congr 1
  rw [List.getElem?_drop]
  have h2 : it.raw.start + (it.raw.endI - 1 - it.raw.start) = it.raw.endI - 1 := by omega
  rw [h2, List.getElem?_eq_getElem (by omega)]
  rfl

/-- Peeling one `next_back` off the remaining range removes its low
end. -/
theorem remaining_next_back {α : Type} (it : IntoIter α)
    (hlt : it.raw.start < it.raw.endI) (hel : it.raw.endI ≤ it.vec.data.length) :
    it.remaining =
      it.vec.data[it.raw.start] ::
        ({ it with raw := { it.raw with start := it.raw.start + 1 } } : IntoIter α).remaining := by
  unfold IntoIter.remaining
  simp only []
  rw [List.drop_eq_getElem_cons (by omega : it.raw.start < it.vec.data.length)]
  have h1 : it.raw.endI - it.raw.start = (it.raw.endI - (it.raw.start + 1)) + 1 := by omega
  rw [h1, List.take_succ_cons]

/-- Any sequence of `next`/`next_back` calls long enough to cover the
remaining range yields exactly its elements (as a multiset) and ends
exhausted. -/
theorem runIter_spec {α : Type} (bs : List Bool) (it : IntoIter α)
    (hse : it.raw.start ≤ it.raw.endI) (hel : it.raw.endI ≤ it.vec.data.length)
    (hlen : it.raw.endI - it.raw.start ≤ bs.length) :
    (runIter bs it).1.reduceOption.Perm it.remaining ∧
    (runIter bs it).2.raw.start = (runIter bs it).2.raw.endI := by
  induction bs generalizing it with
  | nil =>
    have h0 : it.raw.endI - it.raw.start = 0 := by simpa using hlen
    refine ⟨?_, by show it.raw.start = it.raw.endI; omega⟩
    show List.reduceOption ([] : List (Option α)) |>.Perm it.remaining
    unfold IntoIter.remaining
    rw [h0]
    simp
  | cons b bs ih =>
    simp only [List.length_cons] at hlen
    by_cases hex : it.raw.start = it.raw.endI
    · have hcall : (if b then it.next else it.next_back) = (none, it) := by
        cases b <;> simp [IntoIter.next, IntoIter.next_back, hex]
      rw [runIter_cons, hcall]
      have h := ih it hse hel (by omega)
      exact ⟨by simpa [List.reduceOption_cons_of_none] using h.1, h.2⟩
    · have hlt : it.raw.start < it.raw.endI := by omega
      cases b with
      | true =>
        have hb : it.raw.endI - 1 < it.vec.data.length := by omega
        have hstep : it.next = (some (it.vec.data[it.raw.endI - 1]),
            { it with raw := { it.raw with endI := it.raw.endI - 1 } }) := by
          unfold IntoIter.next
          rw [if_neg hex, List.getElem?_eq_getElem (by omega)]
        rw [runIter_cons]
        simp only [if_true]
        rw [hstep]
        simp only []
        have h := ih { it with raw := { it.raw with endI := it.raw.endI - 1 } }
          (by simp; omega) (by simp; omega) (by simp; omega)
        refine ⟨?_, h.2⟩
        rw [List.reduceOption_cons_of_some, remaining_next it hlt hel]
        exact (h.1.cons _).trans (List.perm_append_singleton _ _).symm
      | false =>
        have hb : it.raw.start < it.vec.data.length := by omega
        have hstep : it.next_back = (some (it.vec.data[it.raw.start]),
            { it with raw := { it.raw with start := it.raw.start + 1 } }) := by
          unfold IntoIter.next_back
          rw [if_neg hex, List.getElem?_eq_getElem (by omega)]
        rw [runIter_cons]
        simp only [Bool.false_eq_true, if_false]
        rw [hstep]
        simp only []
        have h := ih { it with raw := { it.raw with start := it.raw.start + 1 } }
          (by simp; omega) (by simp; omega) (by simp; omega)
        refine ⟨?_, h.2⟩
        rw [List.reduceOption_cons_of_some, remaining_next_back it hlt hel]
        exact h.1.cons _

/-- Claim C3: on a non-exhausted iterator, `next` yields the element at
the high end of the remaining range and decrements `end`, while
`next_back` yields the element at the low end and increments `start`;
concretely, after push(1), push(2), push(3) and `into_iter`, the calls
next, next_back, next, next return 3, 1, 2, no-value in that order. -/
theorem intoIter_next_spec {α : Type} (it : IntoIter α)
    (h : it.raw.start ≠ it.raw.endI) :
    it.next = (it.vec.data[it.raw.endI - 1]?,
      { it with raw := { it.raw with endI := it.raw.endI - 1 } }) ∧
    it.next_back = (it.vec.data[it.raw.start]?,
      { it with raw := { it.raw with start := it.raw.start + 1 } }) ∧
    (RVec.pushAll 4 RVec.new [1, 2, 3]).map
        (fun w => (runIter [true, false, true, true] w.intoIter).1) =
      .ok [some 3, some 1, some 2, none] := by
  refine ⟨?_, ?_, by decide⟩
  · unfold IntoIter.next
    rw [if_neg h]
  · unfold IntoIter.next_back
    rw [if_neg h]

/-- Witness for `intoIter_next_spec` at a concrete input. -/
theorem intoIter_next_spec_witness :
    ((⟨[9], 1⟩ : RVec Nat).intoIter).next = (some 9, ⟨⟨[9], 1⟩, ⟨0, 0⟩⟩) :=
  (intoIter_next_spec ((⟨[9], 1⟩ : RVec Nat).intoIter) (by decide)).1

/-- Claim C4: for every array and every interleaving of `next` and
`next_back` calls long enough to exhaust the iterator, the multiset of
yielded values equals the array's original element multiset (each
element exactly once), the iterator ends with `start = end`, and once
`start = end` every further call of either method returns no-value
forever. -/
theorem intoIter_multiset {α : Type} (v : RVec α) (bs : List Bool)
    (hlen : v.data.length ≤ bs.length) :
    (runIter bs v.intoIter).1.reduceOption.Perm v.data ∧
    (runIter bs v.intoIter).2.raw.start = (runIter bs v.intoIter).2.raw.endI ∧
    ∀ (cs : List Bool) (it : IntoIter α), it.raw.start = it.raw.endI →
      (runIter cs it).1 = List.replicate cs.length none := by
  have h := runIter_spec bs v.intoIter (by simp [RVec.intoIter, RawValIter.new])
    (by simp [RVec.intoIter, RawValIter.new])
    (by simpa [RVec.intoIter, RawValIter.new] using hlen)
  refine ⟨?_, h.2, fun cs it hex => runIter_exhausted cs it hex⟩
  have hrem : (v.intoIter).remaining = v.data := by
    simp [IntoIter.remaining, RVec.intoIter, RawValIter.new]
  rw [← hrem]
  exact h.1

/-- Witness for `intoIter_multiset` at a concrete input. -/
theorem intoIter_multiset_witness :
    (runIter [true, false, true, true]
        ((⟨[1, 2, 3], 4⟩ : RVec Nat).intoIter)).1.reduceOption.Perm [1, 2, 3] :=
  (intoIter_multiset ⟨[1, 2, 3], 4⟩ [true, false, true, true] (by decide)).1

/-! ## Capacity invariants over whole runs -/

/-- One successful operation preserves `len ≤ cap`, never shrinks the
capacity, and changes the capacity only by the growth rule
(0 ↦ 1 or c ↦ 2c). -/
theorem applyOp_inv {α : Type} {es : Nat} {op : Op α} {v v' : RVec α}
    (h : applyOp es op v = .ok v') (hlen : v.data.length ≤ v.cap) :
    v'.data.length ≤ v'.cap ∧ v.cap ≤ v'.cap ∧
      (v'.cap = v.cap ∨ ((v.cap = 0 ∧ v'.cap = 1) ∨ (v.cap ≠ 0 ∧ v'.cap = v.cap * 2))) := by
  cases op with
  | push x =>
    replace h : RVec.push es v x = .ok v' := h
    unfold RVec.push at h
    split at h
    next e heq => exact Except.noConfusion h
    next w heq =>
      cases h
      split at heq
      case isTrue hfull =>
        obtain ⟨hd, hc, hdisj⟩ := grow_ok heq
        refine ⟨?_, hc, Or.inr hdisj⟩
        show (w.data ++ [x]).length ≤ w.cap
        have hl : (w.data ++ [x]).length = v.data.length + 1 := by simp [hd]
        rw [hl]
        rcases hdisj with ⟨h0, h1⟩ | ⟨h0, h2⟩ <;> omega
      case isFalse hfull =>
        cases heq
        refine ⟨?_, le_refl _, Or.inl rfl⟩
        show (v.data ++ [x]).length ≤ v.cap
        simp only [List.length_append, List.length_singleton]
        omega
  | pop =>
    replace h : Except.ok (RVec.pop v).1 = Except.ok v' := h
    cases h
    unfold RVec.pop
    split
    case isTrue h0 => exact ⟨hlen, le_refl _, Or.inl rfl⟩
    case isFalse h0 =>
      refine ⟨?_, le_refl _, Or.inl rfl⟩
      show v.data.dropLast.length ≤ v.cap
      rw [List.length_dropLast]
      omega
  | insert i x =>
    replace h : RVec.insert es v i x = .ok v' := h
    unfold RVec.insert at h
    split at h
    case isTrue hle =>
      split at h
      next e heq => exact Except.noConfusion h
      next w heq =>
        cases h
        split at heq
        case isTrue hfull =>
          obtain ⟨hd, hc, hdisj⟩ := grow_ok heq
          refine ⟨?_, hc, Or.inr hdisj⟩
          show (w.data.take i ++ x :: w.data.drop i).length ≤ w.cap
          rw [hd, take_cons_drop i x v.data hle, List.length_insertIdx _ _ hle]
          rcases hdisj with ⟨h0, h1⟩ | ⟨h0, h2⟩ <;> omega
        case isFalse hfull =>
          cases heq
          refine ⟨?_, le_refl _, Or.inl rfl⟩
          show (v.data.take i ++ x :: v.data.drop i).length ≤ v.cap
          rw [take_cons_drop i x v.data hle, List.length_insertIdx _ _ hle]
          omega
    case isFalse hle => exact Except.noConfusion h
  | remove i =>
    replace h : (match RVec.remove v i with
      | .error e => (.error e : Except VecErr (RVec α))
      | .ok p => .ok p.2) = .ok v' := h
    split at h
    next e heq => exact Except.noConfusion h
    next p heq =>
      cases h
      unfold RVec.remove at heq
      split at heq
      case isTrue hlt =>
        cases heq
        refine ⟨?_, le_refl _, Or.inl rfl⟩
        show (v.data.take i ++ v.data.drop (i + 1)).length ≤ v.cap
        rw [← List.eraseIdx_eq_take_drop_succ]
        exact le_trans (List.length_eraseIdx_le _ _) hlen
      case isFalse hlt => exact Except.noConfusion heq

/-- Whole-run invariant: starting from a state whose capacity is the
one reached after `k0` growth events (`0` for `k0 = 0`, else
`2^(k0-1)`) with `len ≤ cap`, a successful run with `k` further growth
events ends with `len ≤ cap`, a capacity that never shrank, and
capacity `2^(k0+k-1)` (or still 0 when no growth ever happened). -/
theorem runCount_inv {α : Type} (es : Nat) (ops : List (Op α)) :
    ∀ (v vf : RVec α) (k0 k : Nat),
      runCount es ops v = .ok (vf, k) →
      v.data.length ≤ v.cap → v.cap = (if k0 = 0 then 0 else 2 ^ (k0 - 1)) →
      vf.data.length ≤ vf.cap ∧ v.cap ≤ vf.cap ∧
        vf.cap = (if k0 + k = 0 then 0 else 2 ^ (k0 + k - 1)) := by
  induction ops with
  | nil =>
    intro v vf k0 k h hlen hcap
    cases h
    simpa using ⟨hlen, hcap⟩
  | cons op ops ih =>
    intro v vf k0 k h hlen hcap
    replace h : (match applyOp es op v with
      | .error e => (.error e : Except VecErr (RVec α × Nat))
      | .ok v' =>
        match runCount es ops v' with
        | .error e => .error e
        | .ok (vf, k) => .ok (vf, (if v'.cap = v.cap then 0 else 1) + k)) = .ok (vf, k) := h
    split at h
    next e heq1 => exact Except.noConfusion h
    next v' heq1 =>
      cases heq2 : runCount es ops v' with
      | error e =>
        rw [heq2] at h
        exact Except.noConfusion h
      | ok p =>
        obtain ⟨vf', k'⟩ := p
        rw [heq2] at h
        cases h
        obtain ⟨hlen', hmono, hdisj⟩ := applyOp_inv heq1 hlen
        have hcap' : v'.cap =
            (if k0 + (if v'.cap = v.cap then 0 else 1) = 0 then 0
             else 2 ^ (k0 + (if v'.cap = v.cap then 0 else 1) - 1)) := by
          by_cases hch : v'.cap = v.cap
          · rw [if_pos hch]
            simpa [hch] using hcap
          · rw [if_neg hch]
            rcases hdisj with heq | ⟨h0, h1⟩ | ⟨h0, h2⟩
            · exact absurd heq hch
            · have hk0 : k0 = 0 := by
                by_contra hk
                rw [if_neg hk] at hcap
                have : (0 : Nat) < 2 ^ (k0 - 1) := Nat.pos_pow_of_pos _ (by omega)
                omega
              rw [hk0]
              simpa using h1
            · have hk0 : k0 ≠ 0 := by
                intro hk
                rw [if_pos hk] at hcap
                exact h0 hcap
              rw [if_neg hk0] at hcap
              have : v'.cap = 2 ^ ((k0 + 1) - 1) := by
                rw [h2, hcap]
                have hpow : 2 ^ (k0 - 1) * 2 = 2 ^ (k0 - 1 + 1) := by
                  rw [Nat.pow_succ]
                have hk1 : k0 - 1 + 1 = (k0 + 1) - 1 := by omega
                rw [hpow, hk1]
              rw [this]
              rw [if_neg (by omega)]
        have hrec := ih v' vf (k0 + (if v'.cap = v.cap then 0 else 1)) k' heq2 hlen' hcap'
        refine ⟨hrec.1, le_trans hmono hrec.2.1, ?_⟩
        have harith : k0 + (if v'.cap = v.cap then 0 else 1) + k' =
            k0 + ((if v'.cap = v.cap then 0 else 1) + k') := by omega
        rw [← harith]
        exact hrec.2.2

/-- Claim C5: after every successful sequence of operations from
`new()` with `k` growth events, `capacity ≥ length` holds, capacity is
0 only when length is 0, the capacity equals `2^(k-1)` (0 when `k = 0`;
the first growth sets it to 1 and each later growth doubles it), and no
further successful run can ever shrink it. -/
theorem capacity_growth_invariant {α : Type} (es : Nat) (ops : List (Op α))
    (v : RVec α) (k : Nat) (h : runCount es ops RVec.new = .ok (v, k)) :
    v.data.length ≤ v.cap ∧ (v.cap = 0 → v.data.length = 0) ∧
    v.cap = (if k = 0 then 0 else 2 ^ (k - 1)) ∧
    ∀ (ops2 : List (Op α)) (v2 : RVec α) (k2 : Nat),
      runCount es ops2 v = .ok (v2, k2) → v.cap ≤ v2.cap := by
  have h0 := runCount_inv es ops RVec.new v 0 k h (by simp [RVec.new]) (by simp [RVec.new])
  have hcap : v.cap = (if k = 0 then 0 else 2 ^ (k - 1)) := by
    simpa using h0.2.2
  refine ⟨h0.1, fun hc => by omega, hcap, ?_⟩
  intro ops2 v2 k2 h2
  exact (runCount_inv es ops2 v v2 k k2 h2 h0.1 hcap).2.1

/-- Witness for `capacity_growth_invariant` at a concrete input. -/
theorem capacity_growth_invariant_witness :
    (⟨[1, 2, 3], 4⟩ : RVec Nat).data.length ≤ (⟨[1, 2, 3], 4⟩ : RVec Nat).cap ∧
    (⟨[1, 2, 3], 4⟩ : RVec Nat).cap = (if (3 : Nat) = 0 then 0 else 2 ^ (3 - 1)) :=
  have h := capacity_growth_invariant 4 [Op.push 1, Op.push 2, Op.push 3]
    ⟨[1, 2, 3], 4⟩ 3 (by decide)
  ⟨h.1, h.2.2.1⟩
